import Mathlib

/-!
Shallow embedding of the ReversoContextOneToOne translation-discovery
engine (main.py and data_models.py), together with theorems checking the
behaviour of the embedded code.

External collaborators (the Reverso Context API, the stanza lexical
analyzer, and the character classifier of the Python standard library)
are modelled as oracle function parameters; everything else is a direct
translation of the source.
-/

namespace Reverso

/-- Model of the Python test `s.strip() == ""`: a string is blank when
every character is whitespace (this includes the empty string). -/
def isBlank (s : String) : Bool := s.data.all Char.isWhitespace

/-- Model of Python `str.split` with a single-character separator,
written on the character list. Splitting never yields an empty list:
splitting the empty list yields one empty piece, and separators at the
ends yield empty pieces, as in Python. -/
def splitChar (c : Char) : List Char → List (List Char)
  | [] => [[]]
  | x :: xs =>
    if x = c then [] :: splitChar c xs
    else
      match splitChar c xs with
      | [] => [x] :: []
      | y :: ys => (x :: y) :: ys

/-- The tag list obtained from `pos.split("/")` in the source. -/
def split_on_slash (s : String) : List String :=
  (splitChar '/' s.data).map (fun cs => String.mk cs)

/-- The single equivalence class of noun tags from the source
(main.py, lines 30-32). -/
def noun_equivalence_class : List String :=
  ["nn.", "nm.", "nf.", "n.", "npl.", "nnpl.", "nmpl.", "nfpl."]

/-- The list `equivalence_classes` from the source. -/
def equivalence_classes : List (List String) := [noun_equivalence_class]

/-- The inner helper of `part_of_speech_equivalence` (main.py, lines
29-38): two atomic tags are equivalent when they are equal or both lie
in a common equivalence class. -/
def equivalent_atomic (p1 p2 : String) : Bool :=
  p1 == p2 || equivalence_classes.any (fun c => c.contains p1 && c.contains p2)

/-- Translation of `part_of_speech_equivalence` (main.py, lines 27-52).
A missing tag is `none`; the blank test models `strip() == ""`; the
double `all` models the early-exit loop over the cross product. -/
def part_of_speech_equivalence (pos1 pos2 : Option String) : Bool :=
  match pos1, pos2 with
  | some p1, some p2 =>
    if isBlank p1 || isBlank p2 then false
    else
      (split_on_slash p1).all (fun a =>
        (split_on_slash p2).all (fun b => equivalent_atomic a b))
  | _, _ => false

/-- The wording of the specification for part-of-speech equivalence:
both tags present and not blank, and every atomic tag of side 1
compatible (identical, or both members of the noun equivalence class)
with every atomic tag of side 2. -/
def partOfSpeechEquivSpec (pos1 pos2 : Option String) : Prop :=
  ∃ p1 p2, pos1 = some p1 ∧ pos2 = some p2 ∧
    isBlank p1 = false ∧ isBlank p2 = false ∧
    ∀ a ∈ split_on_slash p1, ∀ b ∈ split_on_slash p2,
      a = b ∨ (a ∈ noun_equivalence_class ∧ b ∈ noun_equivalence_class)

theorem equivalent_atomic_iff (a b : String) :
    equivalent_atomic a b = true ↔
      a = b ∨ (a ∈ noun_equivalence_class ∧ b ∈ noun_equivalence_class) := by
  simp [equivalent_atomic, equivalence_classes, List.any_eq_true,
    List.contains, Bool.and_eq_true, beq_iff_eq]

theorem part_of_speech_equivalence_iff (pos1 pos2 : Option String) :
    part_of_speech_equivalence pos1 pos2 = true ↔ partOfSpeechEquivSpec pos1 pos2 := by
  cases pos1 with
  | none => simp [part_of_speech_equivalence, partOfSpeechEquivSpec]
  | some p1 =>
    cases pos2 with
    | none => simp [part_of_speech_equivalence, partOfSpeechEquivSpec]
    | some p2 =>
      by_cases h1 : isBlank p1 = true
      · simp [part_of_speech_equivalence, partOfSpeechEquivSpec, h1]
      · by_cases h2 : isBlank p2 = true
        · simp [part_of_speech_equivalence, partOfSpeechEquivSpec, h1, h2]
        · simp only [Bool.not_eq_true] at h1 h2
          simp [part_of_speech_equivalence, partOfSpeechEquivSpec, h1, h2,
            List.all_eq_true, equivalent_atomic_iff]

theorem part_of_speech_equivalence_symm (pos1 pos2 : Option String) :
    part_of_speech_equivalence pos1 pos2 = part_of_speech_equivalence pos2 pos1 := by
  have h : ∀ a b : Bool, (a = true ↔ b = true) → a = b := by decide
  apply h
  rw [part_of_speech_equivalence_iff, part_of_speech_equivalence_iff]
  constructor
  · rintro ⟨p1, p2, e1, e2, b1, b2, hc⟩
    exact ⟨p2, p1, e2, e1, b2, b1, fun a ha b hb => (hc b hb a ha).imp Eq.symm And.symm⟩
  · rintro ⟨p1, p2, e1, e2, b1, b2, hc⟩
    exact ⟨p2, p1, e2, e1, b2, b1, fun a ha b hb => (hc b hb a ha).imp Eq.symm And.symm⟩

/-- Claim C3: `part_of_speech_equivalence` returns true exactly when both
tags are present and not blank, and every atomic tag obtained by
splitting tag 1 on the slash is compatible (identical, or both in the
noun equivalence class) with every atomic tag obtained by splitting
tag 2 on the slash; one bad pairing, or an absent or blank tag, gives
false. -/
theorem claim3_pos_equiv_iff (pos1 pos2 : Option String) :
    part_of_speech_equivalence pos1 pos2 = true ↔ partOfSpeechEquivSpec pos1 pos2 :=
  part_of_speech_equivalence_iff pos1 pos2

/-- Claim C8, counterexample: the claim asserts reflexivity for any
non-empty tag, but a non-blank tag whose atomic components are
incompatible, and a whitespace-only (non-empty) tag, are both
non-equivalent to themselves. -/
theorem claim8_counterexample :
    ("v./adj." ≠ "" ∧ part_of_speech_equivalence (some "v./adj.") (some "v./adj.") = false) ∧
    (" " ≠ "" ∧ part_of_speech_equivalence (some " ") (some " ") = false) := by
  refine ⟨⟨?_, rfl⟩, ⟨?_, rfl⟩⟩ <;> decide

/-- Claim C8, amended: equivalence is symmetric for all tags, and
reflexive for every tag that is not blank and whose atomic components
are pairwise equivalent. -/
theorem claim8_amended :
    (∀ pos1 pos2, part_of_speech_equivalence pos1 pos2 = part_of_speech_equivalence pos2 pos1) ∧
    (∀ p : String, isBlank p = false →
      (∀ a ∈ split_on_slash p, ∀ b ∈ split_on_slash p, equivalent_atomic a b = true) →
      part_of_speech_equivalence (some p) (some p) = true) := by
  refine ⟨part_of_speech_equivalence_symm, ?_⟩
  intro p hb hall
  simp [part_of_speech_equivalence, hb, List.all_eq_true]
  exact hall

theorem claim8_witness :
    part_of_speech_equivalence (some "nf./nm.") (some "nf./nm.") = true :=
  claim8_amended.2 "nf./nm." rfl (by decide)

theorem splitChar_no_sep (c : Char) (l : List Char) (h : ∀ x ∈ l, x ≠ c) :
    splitChar c l = [l] := by
  induction l with
  | nil => rfl
  | cons x xs ih =>
    have hx : x ≠ c := h x (List.mem_cons_self x xs)
    have hxs : splitChar c xs = [xs] := ih (fun y hy => h y (List.mem_cons_of_mem x hy))
    simp [splitChar, hx, hxs]

/-- Claim C10: for every tag containing no slash separator and not
blank, the tag is equivalent to itself, with no appeal to the noun
equivalence class. -/
theorem claim10_atomic_refl (p : String) (hsep : ∀ ch ∈ p.data, ch ≠ '/')
    (hb : isBlank p = false) :
    part_of_speech_equivalence (some p) (some p) = true := by
  have hsplit : split_on_slash p = [p] := by
    cases p with
    | mk l => simp [split_on_slash, splitChar_no_sep '/' l hsep]
  simp [part_of_speech_equivalence, hb, hsplit, equivalent_atomic]

theorem claim10_atomic_refl_witness :
    part_of_speech_equivalence (some "v.") (some "v.") = true :=
  claim10_atomic_refl "v." (by decide) rfl

/-- A translation candidate as returned by the Reverso Context API: the
fields of the `Translation` namedtuple that the source reads. A missing
part of speech is `none`. -/
structure Translation where
  translation : String
  frequency : Nat
  part_of_speech : Option String

deriving instance DecidableEq for Translation

/-- The record of data_models.py. -/
structure OneToOneRecord where
  word : String
  frequency : Nat
  translation : String

deriving instance DecidableEq for OneToOneRecord

/-- The list comprehension of main.py, lines 77-83: the back
translations whose part of speech is equivalent to the top forward
translation's part of speech. -/
def filtered_back_translations (backs : List Translation) (top_pos : Option String) :
    List Translation :=
  backs.filter (fun t => part_of_speech_equivalence t.part_of_speech top_pos)

/-- Translation of `check_one_to_one` (main.py, lines 55-102). The
reversed Reverso Context query is modelled by the oracle `backOf`,
applied to the query word and then the source and target languages of
that reversed query; note the language swap at the call site. -/
def check_one_to_one (backOf : String → String → String → List Translation)
    (original_word : String) (translations : List Translation)
    (source_lang target_lang : String) : Option OneToOneRecord :=
  match translations with
  | [] => none
  | top_translation_object :: _ =>
    match backOf top_translation_object.translation target_lang source_lang with
    | [] => none
    | top_back_translation_object :: back_rest =>
      let filtered := filtered_back_translations
        (top_back_translation_object :: back_rest) top_translation_object.part_of_speech
      let m : Option Translation :=
        if top_back_translation_object.translation == original_word then
          some top_back_translation_object
        else
          match filtered with
          | [] => none
          | f :: _ => if f.translation == original_word then some f else none
      match m with
      | none => none
      | some _ =>
        some ⟨original_word, top_back_translation_object.frequency,
          top_translation_object.translation⟩

/-- Claim C1: whenever the forward list and the back list are both
non-empty and a match is found (the unfiltered top back translation is
the original word, or else the part-of-speech-filtered back list starts
with the original word), the detector returns the record built from the
original word, the frequency of the unfiltered top back translation and
the top forward candidate; in particular the seed scenario for the word
желание returns the record with frequency 95 and translation desire. -/
theorem claim1_detector :
    (∀ (backOf : String → String → String → List Translation)
      (original_word source_lang target_lang : String)
      (top : Translation) (rest : List Translation)
      (top_back : Translation) (back_rest : List Translation),
      backOf top.translation target_lang source_lang = top_back :: back_rest →
      (top_back.translation = original_word ∨
        (∃ f fs, filtered_back_translations (top_back :: back_rest) top.part_of_speech =
            f :: fs ∧ f.translation = original_word)) →
      check_one_to_one backOf original_word (top :: rest) source_lang target_lang =
        some ⟨original_word, top_back.frequency, top.translation⟩) ∧
    check_one_to_one
      (fun s _ _ => if s = "desire" then
        [⟨"желание", 95, some "n."⟩, ⟨"жажда", 10, some "n."⟩] else [])
      "желание" [⟨"desire", 120, some "n."⟩, ⟨"wish", 80, some "n."⟩] "ru" "en" =
      some ⟨"желание", 95, "desire"⟩ := by
  constructor
  · intro backOf original_word source_lang target_lang top rest top_back back_rest hback hm
    simp only [check_one_to_one, hback]
    rcases hm with h | ⟨f, fs, hfil, hf⟩
    · have hb : (top_back.translation == original_word) = true := by simp [h]
      simp [hb]
    · cases hb : top_back.translation == original_word
      · have hfb : (f.translation == original_word) = true := by simp [hf]
        simp [hb, hfil, hfb]
      · simp [hb]
  · rfl

theorem claim1_detector_witness :
    check_one_to_one
      (fun s _ _ => if s = "desire" then
        [⟨"желание", 95, some "n."⟩, ⟨"жажда", 10, some "n."⟩] else [])
      "желание" [⟨"desire", 120, some "n."⟩, ⟨"wish", 80, some "n."⟩] "ru" "en" =
      some ⟨"желание", 95, "desire"⟩ :=
  claim1_detector.1 _ "желание" "ru" "en" ⟨"desire", 120, some "n."⟩
    [⟨"wish", 80, some "n."⟩] ⟨"желание", 95, some "n."⟩ [⟨"жажда", 10, some "n."⟩]
    rfl (Or.inl rfl)

/-- Frontier state: the deque `words_to_translate` and the set
`scraped_words` of the source, the set kept as its insertion-ordered
list of elements. -/
structure Frontier where
  queue : List String
  seen : List String

deriving instance DecidableEq for Frontier

/-- Lines 243-245 of main.py: keep the batch words not yet seen, append
them to the back of the queue and add them to the seen set, one batch
word at a time (the batch is a Python set, given here in its iteration
order). -/
def enqueueNew (fr : Frontier) (batch : List String) : Frontier :=
  batch.foldl
    (fun st w => if w ∈ st.seen then st else ⟨st.queue ++ [w], st.seen ++ [w]⟩) fr

/-- Line 248 of main.py, `words_to_translate.popleft()`: `none` models
the IndexError raised on an empty deque. -/
def dequeueNext (fr : Frontier) : Option (String × Frontier) :=
  match fr.queue with
  | [] => none
  | w :: rest => some (w, ⟨rest, fr.seen⟩)

/-- An operation on the frontier: an enqueueNew call with a batch of
candidate words, or a dequeueNext call. -/
inductive FrontierOp where
  | enq (batch : List String)
  | deq

def applyOp (fr : Frontier) : FrontierOp → Option Frontier
  | .enq b => some (enqueueNew fr b)
  | .deq => (dequeueNext fr).map Prod.snd

def applyOps (ops : List FrontierOp) (fr : Frontier) : Option Frontier :=
  match ops with
  | [] => some fr
  | op :: rest =>
    match applyOp fr op with
    | none => none
    | some fr2 => applyOps rest fr2

/-- First-occurrence extension: fold the words into the accumulator,
skipping the ones already present. -/
def foAppend (acc : List String) (ws : List String) : List String :=
  ws.foldl (fun L w => if w ∈ L then L else L ++ [w]) acc

/-- All words ever passed to enqueueNew, in order. -/
def enqStream : List FrontierOp → List String
  | [] => []
  | .enq b :: rest => b ++ enqStream rest
  | .deq :: rest => enqStream rest

/-- Number of dequeueNext calls in an operation sequence. -/
def deqCount : List FrontierOp → Nat
  | [] => 0
  | .enq _ :: rest => deqCount rest
  | .deq :: rest => deqCount rest + 1

theorem enqueueNew_spec (batch : List String) :
    ∀ fr : Frontier, ∃ T, enqueueNew fr batch = ⟨fr.queue ++ T, fr.seen ++ T⟩ ∧
      foAppend fr.seen batch = fr.seen ++ T := by
  induction batch with
  | nil => intro fr; exact ⟨[], by simp [enqueueNew, foAppend]⟩
  | cons w b ih =>
    intro fr
    by_cases hw : w ∈ fr.seen
    · obtain ⟨T, h1, h2⟩ := ih fr
      refine ⟨T, ?_, ?_⟩
      · simpa [enqueueNew, hw] using h1
      · simpa [foAppend, hw] using h2
    · obtain ⟨T, h1, h2⟩ := ih ⟨fr.queue ++ [w], fr.seen ++ [w]⟩
      refine ⟨w :: T, ?_, ?_⟩
      · simp only [enqueueNew, List.foldl_cons, hw, if_false] at h1 ⊢
        rw [h1]
        simp
      · simp only [foAppend, List.foldl_cons, hw, if_false] at h2 ⊢
        rw [h2]
        simp

theorem mem_foAppend (x : String) (ws : List String) :
    ∀ acc, x ∈ foAppend acc ws ↔ x ∈ acc ∨ x ∈ ws := by
  induction ws with
  | nil => intro acc; simp [foAppend]
  | cons w b ih =>
    intro acc
    by_cases hw : w ∈ acc
    · have : foAppend acc (w :: b) = foAppend acc b := by simp [foAppend, hw]
      rw [this, ih, List.mem_cons]
      constructor
      · rintro (h | h)
        · exact Or.inl h
        · exact Or.inr (Or.inr h)
      · rintro (h | h | h)
        · exact Or.inl h
        · subst h; exact Or.inl hw
        · exact Or.inr h
    · have : foAppend acc (w :: b) = foAppend (acc ++ [w]) b := by simp [foAppend, hw]
      rw [this, ih]
      simp [List.mem_append, or_assoc]

theorem foAppend_nodup (ws : List String) :
    ∀ acc : List String, acc.Nodup → (foAppend acc ws).Nodup := by
  induction ws with
  | nil => intro acc h; simpa [foAppend] using h
  | cons w b ih =>
    intro acc h
    by_cases hw : w ∈ acc
    · have : foAppend acc (w :: b) = foAppend acc b := by simp [foAppend, hw]
      rw [this]
      exact ih acc h
    · have : foAppend acc (w :: b) = foAppend (acc ++ [w]) b := by simp [foAppend, hw]
      rw [this]
      refine ih (acc ++ [w]) ?_
      simp [List.nodup_append, h, hw]

theorem foAppend_append (acc b s : List String) :
    foAppend acc (b ++ s) = foAppend (foAppend acc b) s := by
  simp [foAppend, List.foldl_append]

theorem applyOps_drop (ops : List FrontierOp) :
    ∀ (L : List String) (k : Nat) (fr : Frontier), k ≤ L.length →
      applyOps ops ⟨L.drop k, L⟩ = some fr →
      fr.seen = foAppend L (enqStream ops) ∧
      fr.queue = (foAppend L (enqStream ops)).drop (k + deqCount ops) ∧
      k + deqCount ops ≤ (foAppend L (enqStream ops)).length := by
  induction ops with
  | nil =>
    intro L k fr hk h
    simp only [applyOps, Option.some.injEq] at h
    subst h
    refine ⟨rfl, rfl, ?_⟩
    simpa [foAppend, deqCount] using hk
  | cons op rest ih =>
    intro L k fr hk h
    cases op with
    | enq b =>
      obtain ⟨T, he, hf⟩ := enqueueNew_spec b ⟨L.drop k, L⟩
      simp only [applyOps, applyOp] at h
      rw [he] at h
      have hdrop : L.drop k ++ T = (L ++ T).drop k := by
        rw [List.drop_append_of_le_length hk]
      rw [hdrop] at h
      have hk2 : k ≤ (L ++ T).length := by
        simp only [List.length_append]
        omega
      obtain ⟨hs, hq, hl⟩ := ih (L ++ T) k fr hk2 h
      have hrw : foAppend L (enqStream (FrontierOp.enq b :: rest)) =
          foAppend (L ++ T) (enqStream rest) := by
        show foAppend L (b ++ enqStream rest) = _
        rw [foAppend_append, hf]
      rw [hrw]
      exact ⟨hs, by simpa [deqCount] using hq, by simpa [deqCount] using hl⟩
    | deq =>
      simp only [applyOps, applyOp, dequeueNext] at h
      cases hq : L.drop k with
      | nil => rw [hq] at h; simp at h
      | cons w q2 =>
        rw [hq] at h
        simp only [Option.map_some', applyOps] at h
        have hlen : k + 1 ≤ L.length := by
          have := congrArg List.length hq
          simp only [List.length_drop, List.length_cons] at this
          omega
        have hq2 : q2 = L.drop (k + 1) := by
          have := List.tail_drop L k
          rw [hq] at this
          simpa using this
        rw [hq2] at h
        obtain ⟨hs, hqq, hl⟩ := ih L (k + 1) fr hlen h
        have harith : k + 1 + deqCount rest = k + deqCount (FrontierOp.deq :: rest) := by
          simp [deqCount]
          omega
        refine ⟨by simpa [enqStream] using hs, ?_, ?_⟩
        · rw [← harith]
          simpa [enqStream] using hqq
        · rw [← harith]
          simpa [enqStream] using hl

/-- Claim C2: starting from the empty frontier, after any successful
sequence of enqueueNew and dequeueNext operations, the seen set is
exactly the first occurrences of all words ever passed to enqueueNew
(in first-enqueued order and without duplicates, so no word is ever
enqueued twice), the queue is exactly those first occurrences not yet
removed by dequeueNext in first-enqueued-first-out order, and the seen
set is a superset of the queue. -/
theorem claim2_frontier (ops : List FrontierOp) (fr : Frontier)
    (h : applyOps ops ⟨[], []⟩ = some fr) :
    fr.seen = foAppend [] (enqStream ops) ∧
    (∀ w, w ∈ fr.seen ↔ w ∈ enqStream ops) ∧
    fr.seen.Nodup ∧
    fr.queue = fr.seen.drop (deqCount ops) ∧
    (∀ w ∈ fr.queue, w ∈ fr.seen) := by
  have h0 : ([] : List String).drop 0 = [] := rfl
  obtain ⟨hs, hq, _⟩ := applyOps_drop ops [] 0 fr (by simp) (by rw [← h0] at h; exact h)
  refine ⟨hs, ?_, ?_, ?_, ?_⟩
  · intro w
    rw [hs, mem_foAppend]
    simp
  · rw [hs]
    exact foAppend_nodup _ [] List.nodup_nil
  · rw [hq, hs]
    simp
  · intro w hw
    rw [hq] at hw
    rw [hs]
    exact List.mem_of_mem_drop hw

theorem claim2_frontier_witness :
    Frontier.seen ⟨["b"], ["a", "b"]⟩ =
      foAppend [] (enqStream [FrontierOp.enq ["a", "b"], FrontierOp.deq]) ∧
    (∀ w, w ∈ Frontier.seen ⟨["b"], ["a", "b"]⟩ ↔
      w ∈ enqStream [FrontierOp.enq ["a", "b"], FrontierOp.deq]) ∧
    (Frontier.seen ⟨["b"], ["a", "b"]⟩).Nodup ∧
    Frontier.queue ⟨["b"], ["a", "b"]⟩ =
      (Frontier.seen ⟨["b"], ["a", "b"]⟩).drop
        (deqCount [FrontierOp.enq ["a", "b"], FrontierOp.deq]) ∧
    (∀ w ∈ Frontier.queue ⟨["b"], ["a", "b"]⟩, w ∈ Frontier.seen ⟨["b"], ["a", "b"]⟩) :=
  claim2_frontier [FrontierOp.enq ["a", "b"], FrontierOp.deq] ⟨["b"], ["a", "b"]⟩ rfl

/-- Concatenation of the source-side texts of the context sentences,
as in the loop of main.py, lines 130-131: each context sentence is a
pair whose first component is the source-language example, and the
texts are appended with no separator. -/
def concat_context_texts (sentences : List (String × String)) : String :=
  sentences.foldl (fun acc cs => acc ++ cs.1) ""

/-- The constant `sentence_count` of main.py, line 128. -/
def sentence_count : Nat := 10

/-- Translation of `clean_up_text` (main.py, lines 105-118). The
stanza pipeline is modelled by the oracle `lemmasOf` giving the lemmas
of the words of a text, and the Python character test `c.isalpha()` by
the oracle `isAlphaC`. The lemma set is kept as its insertion-ordered
list of distinct elements. -/
def clean_up_text (lemmasOf : String → List String) (isAlphaC : Char → Bool)
    (text : String) : List String :=
  let all_lemmas := foAppend [] (lemmasOf text)
  all_lemmas.filter (fun l => l.data.any isAlphaC)

/-- Translation of `get_words_from_context_sentences` (main.py, lines
121-133): truncate the example stream to `sentence_count` sentences,
concatenate their source texts, and clean up the result. -/
def get_words_from_context_sentences (lemmasOf : String → List String)
    (isAlphaC : Char → Bool) (context_sentences : List (String × String)) :
    List String :=
  let all_text := concat_context_texts (context_sentences.take sentence_count)
  clean_up_text lemmasOf isAlphaC all_text

/-- Claim C7: the extractor analyzes exactly the first
min(10, length) sentences, its output has exactly the distinct lemmas
of the concatenated truncated text that contain at least one alphabetic
character (so mixed lemmas stay and fully non-alphabetic lemmas go),
and it depends only on the first 10 sentences. -/
theorem claim7_extractor (lemmasOf : String → List String) (isAlphaC : Char → Bool)
    (context_sentences context_sentences2 : List (String × String)) :
    sentence_count = 10 ∧
    (context_sentences.take sentence_count).length =
      min sentence_count context_sentences.length ∧
    (∀ l, l ∈ get_words_from_context_sentences lemmasOf isAlphaC context_sentences ↔
      (l ∈ lemmasOf (concat_context_texts (context_sentences.take sentence_count)) ∧
        l.data.any isAlphaC = true)) ∧
    (get_words_from_context_sentences lemmasOf isAlphaC context_sentences).Nodup ∧
    (context_sentences.take sentence_count = context_sentences2.take sentence_count →
      get_words_from_context_sentences lemmasOf isAlphaC context_sentences =
        get_words_from_context_sentences lemmasOf isAlphaC context_sentences2) := by
  refine ⟨rfl, List.length_take sentence_count context_sentences, ?_, ?_, ?_⟩
  · intro l
    simp [get_words_from_context_sentences, clean_up_text, List.mem_filter, mem_foAppend]
  · exact List.Nodup.filter _ (foAppend_nodup _ [] List.nodup_nil)
  · intro h
    simp only [get_words_from_context_sentences]
    rw [h]

theorem claim7_extractor_witness :
    get_words_from_context_sentences (fun _ => ["ab", "7"]) Char.isAlpha
      (List.replicate 11 ("a", "b")) =
    get_words_from_context_sentences (fun _ => ["ab", "7"]) Char.isAlpha
      (List.replicate 12 ("a", "b")) :=
  (claim7_extractor (fun _ => ["ab", "7"]) Char.isAlpha
    (List.replicate 11 ("a", "b")) (List.replicate 12 ("a", "b"))).2.2.2.2 rfl

/-- Translation of `report_progress` (main.py, lines 136-156), with the
logging dropped and the two true-division ratios returned as rational
numbers. The result is `none` exactly when the Python code raises
ZeroDivisionError: first on `translations_count / scraped_words_count`
when `scraped_words_count == 0`, then on
`one_to_one_count / translations_count` when `translations_count == 0`. -/
def report_progress (iteration words_to_translate_count scraped_words_count
    translations_count one_to_one_count : Nat) : Option (Rat × Rat) :=
  if scraped_words_count = 0 then none
  else
    let translated_proportion : Rat :=
      (translations_count : Rat) / (scraped_words_count : Rat)
    if translations_count = 0 then none
    else some (translated_proportion, (one_to_one_count : Rat) / (translations_count : Rat))

/-- Claim C6: the progress report does not tolerate a zero denominator;
called with zero scraped words, or with a nonzero scraped count and
zero translations, the unguarded division fails (the Python code raises
ZeroDivisionError, modelled by `none`) instead of reporting a
placeholder. -/
theorem claim6_report_divzero :
    report_progress 0 0 0 0 0 = none ∧ report_progress 0 0 5 0 0 = none := ⟨rfl, rfl⟩

/-- The constant `REPORT_INTERVAL` of main.py, line 196. -/
def REPORT_INTERVAL : Nat := 25

/-- The dictionary assignment `translations[current_word] = ...` of
main.py, line 224: the mapping is kept as an association list with one
entry per key, overwritten when the key is already present. -/
def tableInsert (tbl : List (String × List Translation)) (k : String)
    (v : List Translation) : List (String × List Translation) :=
  if tbl.any (fun p => p.1 == k) then
    tbl.map (fun p => if p.1 == k then (k, v) else p)
  else tbl ++ [(k, v)]

/-- Lines 230-233 of main.py: append the record to the ledger when the
detector found one. -/
def appendRecord (ledger : List OneToOneRecord) :
    Option OneToOneRecord → List OneToOneRecord
  | none => ledger
  | some record => ledger ++ [record]

/-- The observable outcome of a run: the translation table, the
one-to-one ledger, the words processed in order, the outcomes of the
progress reports, and whether the run ended with the fatal IndexError
of `popleft` on an empty deque. -/
structure RunResult where
  translations : List (String × List Translation)
  one_to_one : List OneToOneRecord
  processed : List String
  reports : List (Option (Rat × Rat))
  fatal : Bool

/-- Translation of the loop body of `run` (main.py, lines 210-267),
iterated on explicit fuel. The Reverso Context API is modelled by the
oracles `transOf` (forward query) and `backOf` (reversed query inside
the detector), the stanza pipeline by `lemmasOf` with the character
classifier `isAlphaC`, and the example-sentence stream by `examplesOf`.
Logging, the one-second sleep and the checkpoint file write are
dropped as pure I/O; the progress report keeps its computed ratios. -/
def runAux (transOf backOf : String → String → String → List Translation)
    (lemmasOf : String → List String) (isAlphaC : Char → Bool)
    (examplesOf : String → List (String × String))
    (source_lang target_lang : String) :
    Nat → Nat → String → Frontier → List (String × List Translation) →
    List OneToOneRecord → RunResult
  | 0, _, _, _, tbl, ledger => ⟨tbl, ledger, [], [], false⟩
  | fuel + 1, i, current_word, fr, tbl, ledger =>
    let translation_objects := transOf current_word source_lang target_lang
    let tbl2 := tableInsert tbl current_word translation_objects
    let ledger2 := appendRecord ledger
      (check_one_to_one backOf current_word translation_objects source_lang target_lang)
    let batch_of_words :=
      get_words_from_context_sentences lemmasOf isAlphaC (examplesOf current_word)
    let fr2 := enqueueNew fr batch_of_words
    match dequeueNext fr2 with
    | none => ⟨tbl2, ledger2, [current_word], [], true⟩
    | some (next_word, fr3) =>
      let reports :=
        if i % REPORT_INTERVAL = 0 then
          [report_progress i fr3.queue.length fr3.seen.length tbl2.length ledger2.length]
        else []
      let rest := runAux transOf backOf lemmasOf isAlphaC examplesOf
        source_lang target_lang fuel (i + 1) next_word fr3 tbl2 ledger2
      ⟨rest.translations, rest.one_to_one, current_word :: rest.processed,
        reports ++ rest.reports, rest.fatal⟩

/-- Translation of `run` (main.py, lines 185-267): empty state, the
start word as the first current word. -/
def run (transOf backOf : String → String → String → List Translation)
    (lemmasOf : String → List String) (isAlphaC : Char → Bool)
    (examplesOf : String → List (String × String))
    (start_word source_lang target_lang : String) (iteration_count : Nat) : RunResult :=
  runAux transOf backOf lemmasOf isAlphaC examplesOf source_lang target_lang
    iteration_count 0 start_word ⟨[], []⟩ [] []

theorem runAux_processed_inv
    (transOf backOf : String → String → String → List Translation)
    (lemmasOf : String → List String) (isAlphaC : Char → Bool)
    (examplesOf : String → List (String × String)) (source_lang target_lang : String) :
    ∀ (fuel i : Nat) (current : String) (fr : Frontier)
      (tbl : List (String × List Translation)) (ledger : List OneToOneRecord),
      fr.queue.Nodup → fr.seen.Nodup → (∀ w ∈ fr.queue, w ∈ fr.seen) →
      current ∈ fr.seen → current ∉ fr.queue →
      (runAux transOf backOf lemmasOf isAlphaC examplesOf source_lang target_lang
        fuel i current fr tbl ledger).processed.Nodup ∧
      (∀ x ∈ (runAux transOf backOf lemmasOf isAlphaC examplesOf source_lang target_lang
        fuel i current fr tbl ledger).processed,
        x = current ∨ x ∈ fr.queue ∨ x ∉ fr.seen) := by
  intro fuel
  induction fuel with
  | zero =>
    intro i current fr tbl ledger _ _ _ _ _
    simp [runAux]
  | succ fuel ih =>
    intro i current fr tbl ledger hqn hsn hqs hcs hcq
    obtain ⟨T, he, hf⟩ := enqueueNew_spec
      (get_words_from_context_sentences lemmasOf isAlphaC (examplesOf current)) fr
    have hsT : (fr.seen ++ T).Nodup := by
      rw [← hf]; exact foAppend_nodup _ _ hsn
    have hTdisj : ∀ x ∈ T, x ∉ fr.seen := by
      rw [List.nodup_append] at hsT
      exact fun x hx hxs => hsT.2.2 hxs hx
    have hTn : T.Nodup := ((List.nodup_append).mp hsT).2.1
    have hqTn : (fr.queue ++ T).Nodup := by
      rw [List.nodup_append]
      exact ⟨hqn, hTn, fun x hx hxT => hTdisj x hxT (hqs x hx)⟩
    have hqTsub : ∀ x ∈ fr.queue ++ T, x ∈ fr.seen ++ T := by
      intro x hx
      rcases List.mem_append.mp hx with h | h
      · exact List.mem_append_left _ (hqs x h)
      · exact List.mem_append_right _ h
    have hcqT : current ∉ fr.queue ++ T := by
      intro h
      rcases List.mem_append.mp h with h | h
      · exact hcq h
      · exact hTdisj current h hcs
    simp only [runAux]
    rw [he]
    cases hqt : fr.queue ++ T with
    | nil =>
      simp [dequeueNext]
    | cons w q2 =>
      simp only [dequeueNext]
      rw [hqt] at hqTn hqTsub hcqT
      have hq2n : q2.Nodup := (List.nodup_cons.mp hqTn).2
      have hwq2 : w ∉ q2 := (List.nodup_cons.mp hqTn).1
      have hq2sub : ∀ x ∈ q2, x ∈ fr.seen ++ T :=
        fun x hx => hqTsub x (List.mem_cons_of_mem w hx)
      have hwsT : w ∈ fr.seen ++ T := hqTsub w (List.mem_cons_self w q2)
      obtain ⟨IH1, IH2⟩ := ih (i + 1) w ⟨q2, fr.seen ++ T⟩
        (tableInsert tbl current (transOf current source_lang target_lang))
        (appendRecord ledger (check_one_to_one backOf current
          (transOf current source_lang target_lang) source_lang target_lang))
        hq2n hsT hq2sub hwsT hwq2
      have hxcases : ∀ x, x = w ∨ x ∈ q2 ∨ x ∉ fr.seen ++ T →
          x = current ∨ x ∈ fr.queue ∨ x ∉ fr.seen := by
        intro x hx
        rcases hx with rfl | hx | hx
        · rcases List.mem_append.mp (hqt ▸ List.mem_cons_self x q2) with h | h
          · exact Or.inr (Or.inl h)
          · exact Or.inr (Or.inr (hTdisj x h))
        · rcases List.mem_append.mp (hqt ▸ List.mem_cons_of_mem w hx) with h | h
          · exact Or.inr (Or.inl h)
          · exact Or.inr (Or.inr (hTdisj x h))
        · exact Or.inr (Or.inr (fun hxs => hx (List.mem_append_left _ hxs)))
      constructor
      · simp only [List.nodup_cons]
        refine ⟨?_, IH1⟩
        intro hmem
        rcases IH2 current hmem with rfl | h | h
        · exact hcqT (List.mem_cons_self current q2)
        · exact hcqT (List.mem_cons_of_mem w h)
        · exact h (List.mem_append_left _ hcs)
      · intro x hx
        rcases List.mem_cons.mp hx with rfl | hx
        · exact Or.inl rfl
        · exact hxcases x (IH2 x hx)

/-- Claim C4, counterexample: the start word is never added to the
scraped set when the run begins, so when it occurs in the lemmas of its
own context sentences it is re-enqueued and processed a second time;
with two iterations the processed trace is the start word twice. -/
theorem claim4_counterexample :
    (run (fun _ _ _ => []) (fun _ _ _ => []) (fun _ => ["a"]) (fun _ => true)
      (fun _ => [("x", "y")]) "a" "ru" "en" 2).processed = ["a", "a"] ∧
    1 < (["a", "a"] : List String).count "a" := by
  exact ⟨rfl, by decide⟩

/-- Claim C4, amended: every word other than the start word is
processed at most once per run; the start word, which is never added to
the seen set at the start of the run, is processed at most twice. -/
theorem claim4_amended
    (transOf backOf : String → String → String → List Translation)
    (lemmasOf : String → List String) (isAlphaC : Char → Bool)
    (examplesOf : String → List (String × String))
    (start_word source_lang target_lang : String) (iteration_count : Nat)
    (w : String) (hw : w ≠ start_word) :
    ((run transOf backOf lemmasOf isAlphaC examplesOf start_word source_lang
      target_lang iteration_count).processed).count w ≤ 1 ∧
    ((run transOf backOf lemmasOf isAlphaC examplesOf start_word source_lang
      target_lang iteration_count).processed).count start_word ≤ 2 := by
  cases iteration_count with
  | zero => simp [run, runAux]
  | succ n =>
    simp only [run, runAux]
    obtain ⟨T, he, hf⟩ := enqueueNew_spec
      (get_words_from_context_sentences lemmasOf isAlphaC (examplesOf start_word))
      ⟨[], []⟩
    simp only [List.nil_append] at he hf
    have hTn : T.Nodup := by
      rw [← hf]; exact foAppend_nodup _ _ List.nodup_nil
    rw [he]
    cases T with
    | nil =>
      simp [dequeueNext, List.count_cons, hw]
    | cons w0 q2 =>
      simp only [dequeueNext, Nat.zero_add]
      have hq2n : q2.Nodup := (List.nodup_cons.mp hTn).2
      have hw0q2 : w0 ∉ q2 := (List.nodup_cons.mp hTn).1
      obtain ⟨IH1, _⟩ := runAux_processed_inv transOf backOf lemmasOf isAlphaC
        examplesOf source_lang target_lang n 1 w0 ⟨q2, w0 :: q2⟩
        (tableInsert [] start_word (transOf start_word source_lang target_lang))
        (appendRecord [] (check_one_to_one backOf start_word
          (transOf start_word source_lang target_lang) source_lang target_lang))
        hq2n hTn (fun x hx => List.mem_cons_of_mem w0 hx)
        (List.mem_cons_self w0 q2) hw0q2
      have hcount := List.nodup_iff_count_le_one.mp IH1
      constructor
      · simp only [List.count_cons, beq_iff_eq]
        rw [if_neg (fun h => hw h.symm)]
        simpa using hcount w
      · simp only [List.count_cons]
        have := hcount start_word
        split <;> omega

theorem claim4_witness :
    ((run (fun _ _ _ => []) (fun _ _ _ => []) (fun _ => ["a"]) (fun _ => true)
      (fun _ => [("x", "y")]) "a" "ru" "en" 2).processed).count "b" ≤ 1 ∧
    ((run (fun _ _ _ => []) (fun _ _ _ => []) (fun _ => ["a"]) (fun _ => true)
      (fun _ => [("x", "y")]) "a" "ru" "en" 2).processed).count "a" ≤ 2 :=
  claim4_amended (fun _ _ _ => []) (fun _ _ _ => []) (fun _ => ["a"]) (fun _ => true)
    (fun _ => [("x", "y")]) "a" "ru" "en" 2 "b" (by decide)

/-- Claim C5: dequeueNext on an empty queue signals the error (`none`,
modelling the uncaught IndexError) rather than returning a default
word, and when the queue is empty at the dequeue step of an iteration
the run ends fatally there: the word of that iteration is the last one
processed and no further iteration runs. -/
theorem claim5_empty_frontier :
    (∀ fr : Frontier, fr.queue = [] → dequeueNext fr = none) ∧
    (∀ (transOf backOf : String → String → String → List Translation)
      (lemmasOf : String → List String) (isAlphaC : Char → Bool)
      (examplesOf : String → List (String × String))
      (source_lang target_lang : String) (fuel i : Nat) (current : String)
      (fr : Frontier) (tbl : List (String × List Translation))
      (ledger : List OneToOneRecord),
      (enqueueNew fr (get_words_from_context_sentences lemmasOf isAlphaC
        (examplesOf current))).queue = [] →
      (runAux transOf backOf lemmasOf isAlphaC examplesOf source_lang target_lang
        (fuel + 1) i current fr tbl ledger).fatal = true ∧
      (runAux transOf backOf lemmasOf isAlphaC examplesOf source_lang target_lang
        (fuel + 1) i current fr tbl ledger).processed = [current]) := by
  have h1 : ∀ fr : Frontier, fr.queue = [] → dequeueNext fr = none := by
    intro fr h
    cases fr with
    | mk q s =>
      simp only [] at h
      subst h
      rfl
  refine ⟨h1, ?_⟩
  intro transOf backOf lemmasOf isAlphaC examplesOf source_lang target_lang
    fuel i current fr tbl ledger hq
  have hdq := h1 _ hq
  simp only [runAux]
  rw [hdq]
  exact ⟨rfl, rfl⟩

theorem claim5_empty_frontier_witness :
    dequeueNext ⟨[], ["a"]⟩ = none ∧
    (runAux (fun _ _ _ => []) (fun _ _ _ => []) (fun _ => []) (fun _ => true)
      (fun _ => []) "ru" "en" 1 0 "a" ⟨[], []⟩ [] []).fatal = true ∧
    (runAux (fun _ _ _ => []) (fun _ _ _ => []) (fun _ => []) (fun _ => true)
      (fun _ => []) "ru" "en" 1 0 "a" ⟨[], []⟩ [] []).processed = ["a"] :=
  ⟨claim5_empty_frontier.1 ⟨[], ["a"]⟩ rfl,
   claim5_empty_frontier.2 (fun _ _ _ => []) (fun _ _ _ => []) (fun _ => [])
     (fun _ => true) (fun _ => []) "ru" "en" 0 0 "a" ⟨[], []⟩ [] [] rfl⟩

theorem report_progress_isSome (i wc swc tc oc : Nat) (h1 : swc ≠ 0) (h2 : tc ≠ 0) :
    (report_progress i wc swc tc oc).isSome = true := by
  simp [report_progress, h1, h2]

theorem tableInsert_length_pos (tbl : List (String × List Translation))
    (k : String) (v : List Translation) : 0 < (tableInsert tbl k v).length := by
  unfold tableInsert
  split
  · rw [List.length_map]
    rename_i h
    rcases List.any_eq_true.mp h with ⟨p, hp, _⟩
    exact List.length_pos.mpr (List.ne_nil_of_mem hp)
  · simp

theorem runAux_reports_isSome
    (transOf backOf : String → String → String → List Translation)
    (lemmasOf : String → List String) (isAlphaC : Char → Bool)
    (examplesOf : String → List (String × String)) (source_lang target_lang : String) :
    ∀ (fuel i : Nat) (current : String) (fr : Frontier)
      (tbl : List (String × List Translation)) (ledger : List OneToOneRecord),
      (∀ w ∈ fr.queue, w ∈ fr.seen) →
      ((runAux transOf backOf lemmasOf isAlphaC examplesOf source_lang target_lang
        fuel i current fr tbl ledger).reports).all Option.isSome = true := by
  intro fuel
  induction fuel with
  | zero =>
    intro i current fr tbl ledger _
    simp [runAux]
  | succ fuel ih =>
    intro i current fr tbl ledger hqs
    obtain ⟨T, he, hf⟩ := enqueueNew_spec
      (get_words_from_context_sentences lemmasOf isAlphaC (examplesOf current)) fr
    have hqTsub : ∀ x ∈ fr.queue ++ T, x ∈ fr.seen ++ T := by
      intro x hx
      rcases List.mem_append.mp hx with h | h
      · exact List.mem_append_left _ (hqs x h)
      · exact List.mem_append_right _ h
    simp only [runAux]
    rw [he]
    cases hqt : fr.queue ++ T with
    | nil => simp [dequeueNext]
    | cons w q2 =>
      simp only [dequeueNext]
      rw [hqt] at hqTsub
      have hseen : (fr.seen ++ T).length ≠ 0 := by
        have := hqTsub w (List.mem_cons_self w q2)
        have := List.length_pos.mpr (List.ne_nil_of_mem this)
        omega
      have hq2sub : ∀ x ∈ q2, x ∈ fr.seen ++ T :=
        fun x hx => hqTsub x (List.mem_cons_of_mem w hx)
      have hrest := ih (i + 1) w ⟨q2, fr.seen ++ T⟩
        (tableInsert tbl current (transOf current source_lang target_lang))
        (appendRecord ledger (check_one_to_one backOf current
          (transOf current source_lang target_lang) source_lang target_lang))
        hq2sub
      simp only [List.all_append, hrest, Bool.and_true]
      split
      · have htbl : (tableInsert tbl current
            (transOf current source_lang target_lang)).length ≠ 0 := by
          have := tableInsert_length_pos tbl current
            (transOf current source_lang target_lang)
          omega
        have hseen2 : fr.seen.length + T.length ≠ 0 := by
          rw [List.length_append] at hseen
          exact hseen
        simp [report_progress_isSome _ _ _ _ _ hseen2 htbl]
      · simp

/-- Claim C9: on every execution path of the run loop, every progress
report succeeds: when `report_progress` is invoked (at iterations with
i mod 25 = 0, including i = 0) the translation table already holds the
entry of the word just processed and the seen set is non-empty because
the dequeue that just preceded the report succeeded, so neither
unguarded division divides by zero. -/
theorem claim9_reports_safe
    (transOf backOf : String → String → String → List Translation)
    (lemmasOf : String → List String) (isAlphaC : Char → Bool)
    (examplesOf : String → List (String × String))
    (start_word source_lang target_lang : String) (iteration_count : Nat) :
    ((run transOf backOf lemmasOf isAlphaC examplesOf start_word source_lang
      target_lang iteration_count).reports).all Option.isSome = true :=
  runAux_reports_isSome transOf backOf lemmasOf isAlphaC examplesOf source_lang
    target_lang iteration_count 0 start_word ⟨[], []⟩ [] [] (by simp)

end Reverso
